import Mathlib

/-!
Verification of the braid-word validator and strand tracker of
`braidvisualiser/braid.py` (class `Braid`).

The embedding follows the source:
* `Braid.__init__(n, *ops)` validates each operator with `abs(i) >= n` and
  then calls `_track_strands`;
* `_track_strands` initialises `label_positions = [i + 1 for i in range(n)]`,
  binds `self.bot_labels` to that very list, walks the braid word in reverse,
  at each operator records an under-crossing label and swaps two entries of
  `label_positions` in place, binds `self.top_labels` to the same list and
  returns the reversed record list.

Python list indexing accepts negative indices (they wrap once from the end),
which matters because the validator does not reject the operator `0`
(`abs(0) >= n` is false for `n >= 1`), and `index = abs(0) - 1 = -1` then
reaches the tracking code.  `pyIdx`/`pyGet`/`pySet` model that indexing
discipline exactly; a genuinely out-of-range access is `none` (an
`IndexError`).
-/

namespace BraidVis

/-- Python index resolution for a list of length `len`: an index in
`[0, len)` is used as is, an index in `[-len, 0)` wraps once from the end,
anything else raises (`none`). -/
def pyIdx (len : Nat) (i : Int) : Option Nat :=
  if 0 ≤ i ∧ i < (len : Int) then some i.toNat
  else if -(len : Int) ≤ i ∧ i < 0 then some (i + (len : Int)).toNat
  else none

/-- Python `xs[i]` on a list of labels. -/
def pyGet (xs : List Nat) (i : Int) : Option Nat :=
  (pyIdx xs.length i).map fun j => xs.getD j 0

/-- Python `xs[i] = v` on a list of labels. -/
def pySet (xs : List Nat) (i : Int) (v : Nat) : Option (List Nat) :=
  (pyIdx xs.length i).map fun j => xs.set j v

/-- One iteration of the `for op in reversed(self.braid_word)` loop of
`Braid._track_strands` (src lines 67-81): compute `index = abs(op) - 1`,
record the under-crossing label (`label_positions[index + 1]` when
`np.sign(op) == -1`, i.e. `op < 0`, else `label_positions[index]`), then
perform the simultaneous swap assignment, whose right-hand sides both read
the pre-swap list. -/
def trackStep (labels : List Nat) (op : Int) : Option (List Nat × Nat) := do
  let index : Int := (op.natAbs : Int) - 1
  let u ← if op < 0 then pyGet labels (index + 1) else pyGet labels index
  let a ← pyGet labels (index + 1)
  let b ← pyGet labels index
  let labels1 ← pySet labels index a
  let labels2 ← pySet labels1 (index + 1) b
  pure (labels2, u)

/-- The whole reverse-order loop of `_track_strands`, threading the working
array and the growing `undercrossing_labels` accumulator (the source appends
to a list, hence `acc ++ [u]`). -/
def trackLoop : List Int → List Nat → List Nat → Option (List Nat × List Nat)
  | [], labels, acc => some (labels, acc)
  | op :: ops, labels, acc =>
    match trackStep labels op with
    | none => none
    | some (labels2, u) => trackLoop ops labels2 (acc ++ [u])

/-- `[i + 1 for i in range(n)]`, the initial (bottom) label positions. -/
def initLabels (n : Nat) : List Nat := (List.range n).map (· + 1)

/-- The validation loop of `Braid.__init__` (src lines 32-38): every
operator must satisfy `abs(i) < n`, otherwise a `ValueError` is raised.
Note that `0` passes this check for every `n ≥ 1`. -/
def validWord (n : Nat) (ops : List Int) : Bool :=
  ops.all fun i => i.natAbs < n

/-- The integer positions `index` and `index + 1` that one loop iteration of
`_track_strands` reads and writes, with `index = abs(op) - 1` (src line 67). -/
def accessIndices (op : Int) : List Int :=
  [(op.natAbs : Int) - 1, (op.natAbs : Int)]

/-- The observable attributes of a constructed `Braid` object. -/
structure Braid where
  braid_group : Nat
  braid_word : List Int
  bot_labels : List Nat
  top_labels : List Nat
  undercrossing_labels : List Nat
deriving Repr, DecidableEq

/-- `Braid.__init__` followed by `_track_strands`.  The validation loop runs
to completion before any tracking happens; `self.bot_labels` is bound to the
working list *before* the loop and `self.top_labels` to the same list after
it, so after the in-place swaps both attributes hold the final array — the
construction of the record below reflects that aliasing. -/
def mkBraid (n : Nat) (ops : List Int) : Except String Braid :=
  if validWord n ops then
    match trackLoop ops.reverse (initLabels n) [] with
    | some (finalLabels, under) =>
      .ok { braid_group := n
            braid_word := ops
            bot_labels := finalLabels
            top_labels := finalLabels
            undercrossing_labels := under.reverse }
    | none => .error "IndexError"
  else
    .error "Braid operations cannot exceed the containing braid group."

/-- One tracking step as the specification words it (§4.2 step 2): with the
0-based position `i = |g| - 1` taken in `Nat`, record the label at position
`i + 1` for a negative generator and at position `i` for a positive one,
then swap positions `i` and `i + 1`. -/
def specStep (labels : List Nat) (g : Int) : List Nat × Nat :=
  let i : Nat := g.natAbs - 1
  let u : Nat := if g < 0 then labels.getD (i + 1) 0 else labels.getD i 0
  (((labels.set i (labels.getD (i + 1) 0)).set (i + 1) (labels.getD i 0)), u)

/-- The specification's reverse pass: fold `specStep` over the generators,
collecting the recorded labels. -/
def specLoop : List Int → List Nat → List Nat → List Nat × List Nat
  | [], labels, acc => (labels, acc)
  | g :: gs, labels, acc =>
    let p := specStep labels g
    specLoop gs p.1 (acc ++ [p.2])

theorem pyIdx_of_lt (len : Nat) (i : Int) (h1 : 0 ≤ i) (h2 : i < (len : Int)) :
    pyIdx len i = some i.toNat := by
  simp [pyIdx, h1, h2]

theorem pyGet_natCast (xs : List Nat) (j : Nat) (h : j < xs.length) :
    pyGet xs (j : Int) = some (xs.getD j 0) := by
  have h1 : (0 : Int) ≤ (j : Int) := by omega
  have h2 : (j : Int) < (xs.length : Int) := by omega
  simp [pyGet, pyIdx_of_lt _ _ h1 h2]

theorem pySet_natCast (xs : List Nat) (j : Nat) (v : Nat) (h : j < xs.length) :
    pySet xs (j : Int) v = some (xs.set j v) := by
  have h1 : (0 : Int) ≤ (j : Int) := by omega
  have h2 : (j : Int) < (xs.length : Int) := by omega
  simp [pySet, pyIdx_of_lt _ _ h1 h2]

/-- For a genuine generator (`1 ≤ |g| < n`) on a working array of length `n`,
the Python step never wraps and agrees with the specification's step. -/
theorem trackStep_eq_specStep (labels : List Nat) (g : Int) (n : Nat)
    (hlen : labels.length = n) (hg1 : 1 ≤ g.natAbs) (hg2 : g.natAbs < n) :
    trackStep labels g = some (specStep labels g) := by
  have e1 : ((g.natAbs : Int) - 1) = ((g.natAbs - 1 : Nat) : Int) := by omega
  have e2 : ((g.natAbs : Int) - 1 + 1) = ((g.natAbs - 1 + 1 : Nat) : Int) := by omega
  have hilt : g.natAbs - 1 < labels.length := by omega
  have hjlt : g.natAbs - 1 + 1 < labels.length := by omega
  have g1 : pyGet labels ((g.natAbs : Int) - 1) =
      some (labels.getD (g.natAbs - 1) 0) := by
    rw [e1]; exact pyGet_natCast _ _ hilt
  have g2 : pyGet labels ((g.natAbs : Int) - 1 + 1) =
      some (labels.getD (g.natAbs - 1 + 1) 0) := by
    rw [e2]; exact pyGet_natCast _ _ hjlt
  have s1 : pySet labels ((g.natAbs : Int) - 1) (labels.getD (g.natAbs - 1 + 1) 0) =
      some (labels.set (g.natAbs - 1) (labels.getD (g.natAbs - 1 + 1) 0)) := by
    rw [e1]; exact pySet_natCast _ _ _ hilt
  have s2 : pySet (labels.set (g.natAbs - 1) (labels.getD (g.natAbs - 1 + 1) 0))
      ((g.natAbs : Int) - 1 + 1) (labels.getD (g.natAbs - 1) 0) =
      some ((labels.set (g.natAbs - 1) (labels.getD (g.natAbs - 1 + 1) 0)).set
        (g.natAbs - 1 + 1) (labels.getD (g.natAbs - 1) 0)) := by
    rw [e2]; exact pySet_natCast _ _ _ (by simpa using hjlt)
  by_cases hg : g < 0
  · simp only [trackStep, if_pos hg, g1, g2, s1, s2, Option.bind_eq_bind,
      Option.some_bind]
    simp [specStep, hg]
  · simp only [trackStep, if_neg hg, g1, g2, s1, s2, Option.bind_eq_bind,
      Option.some_bind]
    simp [specStep, hg]

theorem specStep_fst_length (labels : List Nat) (g : Int) :
    ((specStep labels g).1).length = labels.length := by
  simp [specStep]

/-- On a validated word without zero generators, the Python loop cannot raise
and computes exactly the specification's loop. -/
theorem trackLoop_eq_specLoop (gs : List Int) (n : Nat) :
    ∀ labels acc, labels.length = n →
      (∀ g ∈ gs, 1 ≤ g.natAbs ∧ g.natAbs < n) →
      trackLoop gs labels acc = some (specLoop gs labels acc) := by
  induction gs with
  | nil => intro labels acc _ _; rfl
  | cons g gs ih =>
    intro labels acc hlen hg
    have hghead := hg g (List.mem_cons_self g gs)
    have hstep := trackStep_eq_specStep labels g n hlen hghead.1 hghead.2
    have hlen2 : ((specStep labels g).1).length = n := by
      rw [specStep_fst_length]; exact hlen
    have htail : ∀ x ∈ gs, 1 ≤ x.natAbs ∧ x.natAbs < n := by
      intro x hx; exact hg x (List.mem_cons_of_mem g hx)
    simp [trackLoop, hstep, specLoop, ih _ _ hlen2 htail]

theorem length_initLabels (n : Nat) : (initLabels n).length = n := by
  simp [initLabels]

theorem mem_initLabels (n k : Nat) : k ∈ initLabels n ↔ 1 ≤ k ∧ k ≤ n := by
  simp only [initLabels, List.mem_map, List.mem_range]
  constructor
  · rintro ⟨a, ha, rfl⟩; omega
  · rintro ⟨h1, h2⟩; exact ⟨k - 1, by omega, by omega⟩

theorem nodup_initLabels (n : Nat) : (initLabels n).Nodup := by
  exact (List.nodup_range n).map fun a b h => by omega

theorem getD_mem_of_lt (xs : List Nat) (j : Nat) (h : j < xs.length) :
    xs.getD j 0 ∈ xs := by
  rw [List.getD_eq_getElem?_getD, List.getElem?_eq_getElem h]
  exact List.getElem_mem h

/-- Swapping the entries at positions `i` and `i + 1` permutes the list. -/
theorem set_swap_perm (labels : List Nat) (i : Nat) (h : i + 1 < labels.length) :
    ((labels.set i (labels.getD (i + 1) 0)).set (i + 1) (labels.getD i 0)).Perm labels := by
  induction labels generalizing i with
  | nil => simp at h
  | cons x t ih =>
    cases i with
    | zero =>
      cases t with
      | nil => simp at h
      | cons y t' =>
        simp only [List.getD_cons_succ, List.getD_cons_zero, List.set_cons_zero,
          List.set_cons_succ]
        exact List.Perm.swap x y t'
    | succ j =>
      have h' : j + 1 < t.length := by simpa using h
      simp only [List.set_cons_succ, List.getD_cons_succ]
      exact List.Perm.cons x (ih j h')

theorem specStep_fst_perm (labels : List Nat) (g : Int) (n : Nat)
    (hlen : labels.length = n) (hg1 : 1 ≤ g.natAbs) (hg2 : g.natAbs < n) :
    ((specStep labels g).1).Perm labels := by
  have h : (g.natAbs - 1) + 1 < labels.length := by omega
  simpa [specStep] using set_swap_perm labels (g.natAbs - 1) h

theorem specStep_snd_mem (labels : List Nat) (g : Int) (n : Nat)
    (hlen : labels.length = n) (hg1 : 1 ≤ g.natAbs) (hg2 : g.natAbs < n) :
    (specStep labels g).2 ∈ labels := by
  have hilt : g.natAbs - 1 < labels.length := by omega
  have hjlt : g.natAbs - 1 + 1 < labels.length := by omega
  by_cases hneg : g < 0
  · simpa [specStep, hneg] using getD_mem_of_lt labels _ hjlt
  · simpa [specStep, hneg] using getD_mem_of_lt labels _ hilt

/-- The working array at the end of the specification pass is a permutation
of the initial one. -/
theorem specLoop_fst_perm (gs : List Int) (n : Nat) :
    ∀ labels acc, labels.length = n →
      (∀ g ∈ gs, 1 ≤ g.natAbs ∧ g.natAbs < n) →
      ((specLoop gs labels acc).1).Perm labels := by
  induction gs with
  | nil => intro labels acc _ _; exact List.Perm.refl _
  | cons g gs ih =>
    intro labels acc hlen hg
    have hghead := hg g (List.mem_cons_self g gs)
    have hswap := specStep_fst_perm labels g n hlen hghead.1 hghead.2
    have hlen2 : ((specStep labels g).1).length = n := by
      rw [specStep_fst_length]; exact hlen
    have htail : ∀ x ∈ gs, 1 ≤ x.natAbs ∧ x.natAbs < n := by
      intro x hx; exact hg x (List.mem_cons_of_mem g hx)
    exact (ih _ (acc ++ [(specStep labels g).2]) hlen2 htail).trans hswap

/-- One recorded label per generator. -/
theorem specLoop_snd_length (gs : List Int) :
    ∀ labels acc, ((specLoop gs labels acc).2).length = acc.length + gs.length := by
  induction gs with
  | nil => intro labels acc; simp [specLoop]
  | cons g gs ih =>
    intro labels acc
    simp only [specLoop]
    rw [ih]
    simp
    omega

/-- Every recorded label comes from the (permuted) working array, so any
property of the initial labels and of the accumulator is preserved. -/
theorem specLoop_snd_mem (gs : List Int) (n : Nat) (P : Nat → Prop) :
    ∀ labels acc, labels.length = n →
      (∀ g ∈ gs, 1 ≤ g.natAbs ∧ g.natAbs < n) →
      (∀ x ∈ labels, P x) → (∀ u ∈ acc, P u) →
      ∀ u ∈ (specLoop gs labels acc).2, P u := by
  induction gs with
  | nil =>
    intro labels acc _ _ _ hacc
    simpa [specLoop] using hacc
  | cons g gs ih =>
    intro labels acc hlen hg hlab hacc
    have hghead := hg g (List.mem_cons_self g gs)
    have hu : P (specStep labels g).2 :=
      hlab _ (specStep_snd_mem labels g n hlen hghead.1 hghead.2)
    have hlen2 : ((specStep labels g).1).length = n := by
      rw [specStep_fst_length]; exact hlen
    have htail : ∀ x ∈ gs, 1 ≤ x.natAbs ∧ x.natAbs < n := by
      intro x hx; exact hg x (List.mem_cons_of_mem g hx)
    have hlab2 : ∀ x ∈ (specStep labels g).1, P x := by
      intro x hx
      exact hlab x ((specStep_fst_perm labels g n hlen hghead.1 hghead.2).mem_iff.mp hx)
    have hacc2 : ∀ u ∈ acc ++ [(specStep labels g).2], P u := by
      intro u hu'
      rcases List.mem_append.mp hu' with h | h
      · exact hacc u h
      · rcases List.mem_singleton.mp h with rfl; exact hu
    exact ih _ _ hlen2 htail hlab2 hacc2

/-- For valid input the constructor succeeds, and every field is the
corresponding value of the specification's pass (with `bot_labels` aliasing
the final array). -/
theorem mkBraid_eq_spec (n : Nat) (ops : List Int)
    (hops : ∀ g ∈ ops, 1 ≤ g.natAbs ∧ g.natAbs < n) :
    mkBraid n ops =
      .ok { braid_group := n
            braid_word := ops
            bot_labels := (specLoop ops.reverse (initLabels n) []).1
            top_labels := (specLoop ops.reverse (initLabels n) []).1
            undercrossing_labels := (specLoop ops.reverse (initLabels n) []).2.reverse } := by
  have hvalid : validWord n ops = true := by
    simp only [validWord, List.all_eq_true, decide_eq_true_eq]
    intro g hg; exact (hops g hg).2
  have hrev : ∀ g ∈ ops.reverse, 1 ≤ g.natAbs ∧ g.natAbs < n := by
    intro g hg; exact hops g (List.mem_reverse.mp hg)
  have hloop := trackLoop_eq_specLoop ops.reverse n (initLabels n) []
    (length_initLabels n) hrev
  simp [mkBraid, hvalid, hloop]

/-- C1: the claim says `bottom_labels` always equals `[1, 2, …, strand_count]`
regardless of the word, as the source's own docstring also states; but
`self.bot_labels` is bound to the working list before the in-place swaps, so
for `strand_count = 2`, `word = [1]` the constructed object has
`bot_labels = [2, 1] ≠ [1, 2]`. -/
theorem bot_labels_not_canonical :
    mkBraid 2 [1] = .ok ⟨2, [1], [2, 1], [2, 1], [1]⟩ ∧
    ([2, 1] : List Nat) ≠ initLabels 2 :=
  ⟨rfl, by decide⟩

/-- C2 (counterexample): for `strand_count = 3`, `word = [1, 2]` the code
yields `bot_labels = [3, 1, 2]` and `undercrossing_labels = [1, 2]`, so the
claimed result (`bottom_labels = [1, 2, 3]`, `top_labels = [3, 1, 2]`,
`undercrossing_labels = [1, 3]`) is not what construction produces. -/
theorem scenario3_claim_refuted :
    mkBraid 3 [1, 2] = .ok ⟨3, [1, 2], [3, 1, 2], [3, 1, 2], [1, 2]⟩ ∧
    mkBraid 3 [1, 2] ≠ .ok ⟨3, [1, 2], [1, 2, 3], [3, 1, 2], [1, 3]⟩ := by
  refine ⟨rfl, fun h => ?_⟩
  have h2 : (Except.ok (⟨3, [1, 2], [3, 1, 2], [3, 1, 2], [1, 2]⟩ : Braid) :
      Except String Braid) = .ok ⟨3, [1, 2], [1, 2, 3], [3, 1, 2], [1, 3]⟩ := h
  injection h2 with h3
  exact absurd (congrArg Braid.bot_labels h3) (by decide)

/-- C2 (amended): constructing with `strand_count = 3` and `word = [1, 2]`
yields `top_labels = [3, 1, 2]`, `undercrossing_labels = [1, 2]` (the
under-label is read *before* each swap), and `bot_labels = [3, 1, 2]`
because it aliases the mutated working array. -/
theorem scenario3_actual :
    mkBraid 3 [1, 2] = .ok ⟨3, [1, 2], [3, 1, 2], [3, 1, 2], [1, 2]⟩ :=
  rfl

/-- C3: the claim (and the spec) require `|g| = 0` to be rejected with the
validation error, but the source only checks `abs(i) >= n`, so the word
`[0]` with `strand_count = 3` is accepted and tracking runs (the Python
index `-1` silently wraps to the last position, swapping the outermost
strands). -/
theorem zero_generator_not_rejected :
    validWord 3 [0] = true ∧
    mkBraid 3 [0] = .ok ⟨3, [0], [3, 2, 1], [3, 2, 1], [3]⟩ :=
  ⟨rfl, rfl⟩

/-- C4: for every valid `(strand_count, word)` the tracker processes the
word in reverse over `[1, …, n]`, records at each generator the label at
position `i + 1` (negative `g`) or `i` (positive `g`) with `i = |g| - 1`,
then swaps positions `i` and `i + 1`; the final array is `top_labels` and
the reversed record list is `undercrossing_labels` — i.e. the code's result
coincides with the specification's pass `specLoop`. -/
theorem tracker_matches_spec_pass (n : Nat) (ops : List Int)
    (hn : 2 ≤ n) (hops : ∀ g ∈ ops, 1 ≤ g.natAbs ∧ g.natAbs ≤ n - 1) :
    ∃ b, mkBraid n ops = .ok b ∧
      b.top_labels = (specLoop ops.reverse (initLabels n) []).1 ∧
      b.undercrossing_labels = (specLoop ops.reverse (initLabels n) []).2.reverse := by
  have hops' : ∀ g ∈ ops, 1 ≤ g.natAbs ∧ g.natAbs < n := by
    intro g hg; have := hops g hg; omega
  exact ⟨_, mkBraid_eq_spec n ops hops', rfl, rfl⟩

/-- C4 witness at `strand_count = 3`, `word = [1, -2]`. -/
theorem tracker_matches_spec_pass_witness :
    ((2 ≤ 3) ∧ (∀ g ∈ ([1, -2] : List Int), 1 ≤ g.natAbs ∧ g.natAbs ≤ 3 - 1)) ∧
    ∃ b, mkBraid 3 [1, -2] = .ok b ∧
      b.top_labels = (specLoop ([1, -2] : List Int).reverse (initLabels 3) []).1 ∧
      b.undercrossing_labels =
        (specLoop ([1, -2] : List Int).reverse (initLabels 3) []).2.reverse :=
  ⟨⟨by decide, by decide⟩, tracker_matches_spec_pass 3 [1, -2] (by decide) (by decide)⟩

/-- C5: the claim says every index accessed during tracking lies in
`[0, strand_count - 1]` for any validator-accepted specification; but the
validator accepts the word `[0]` for `strand_count = 3`, and the generator
`0` accesses position `|0| - 1 = -1`, outside that range. -/
theorem validated_index_out_of_range :
    validWord 3 [0] = true ∧
    ¬ (∀ g ∈ ([0] : List Int), ∀ i ∈ accessIndices g, 0 ≤ i ∧ i < (3 : Int)) := by
  decide

/-- C6: for every valid `(strand_count, word)`, both `top_labels` and
`bot_labels` have length `strand_count`, contain no duplicates, and contain
exactly the labels `1, …, strand_count`. -/
theorem labels_are_permutations (n : Nat) (ops : List Int)
    (hn : 2 ≤ n) (hops : ∀ g ∈ ops, 1 ≤ g.natAbs ∧ g.natAbs ≤ n - 1) :
    ∃ b, mkBraid n ops = .ok b ∧
      b.top_labels.length = n ∧ b.top_labels.Nodup ∧
      (∀ k, k ∈ b.top_labels ↔ 1 ≤ k ∧ k ≤ n) ∧
      b.bot_labels.length = n ∧ b.bot_labels.Nodup ∧
      (∀ k, k ∈ b.bot_labels ↔ 1 ≤ k ∧ k ≤ n) := by
  have hops' : ∀ g ∈ ops, 1 ≤ g.natAbs ∧ g.natAbs < n := by
    intro g hg; have := hops g hg; omega
  have hrev : ∀ g ∈ ops.reverse, 1 ≤ g.natAbs ∧ g.natAbs < n := by
    intro g hg; exact hops' g (List.mem_reverse.mp hg)
  have hperm := specLoop_fst_perm ops.reverse n (initLabels n) []
    (length_initLabels n) hrev
  have hlen : ((specLoop ops.reverse (initLabels n) []).1).length = n := by
    rw [hperm.length_eq, length_initLabels]
  have hnd : ((specLoop ops.reverse (initLabels n) []).1).Nodup :=
    hperm.nodup_iff.mpr (nodup_initLabels n)
  have hmem : ∀ k, k ∈ (specLoop ops.reverse (initLabels n) []).1 ↔ 1 ≤ k ∧ k ≤ n := by
    intro k; rw [hperm.mem_iff]; exact mem_initLabels n k
  exact ⟨_, mkBraid_eq_spec n ops hops', hlen, hnd, hmem, hlen, hnd, hmem⟩

/-- C6 witness at `strand_count = 3`, `word = [2, -1]`. -/
theorem labels_are_permutations_witness :
    ((2 ≤ 3) ∧ (∀ g ∈ ([2, -1] : List Int), 1 ≤ g.natAbs ∧ g.natAbs ≤ 3 - 1)) ∧
    ∃ b, mkBraid 3 [2, -1] = .ok b ∧
      b.top_labels.length = 3 ∧ b.top_labels.Nodup ∧
      (∀ k, k ∈ b.top_labels ↔ 1 ≤ k ∧ k ≤ 3) ∧
      b.bot_labels.length = 3 ∧ b.bot_labels.Nodup ∧
      (∀ k, k ∈ b.bot_labels ↔ 1 ≤ k ∧ k ≤ 3) :=
  ⟨⟨by decide, by decide⟩, labels_are_permutations 3 [2, -1] (by decide) (by decide)⟩

/-- C7: for every valid `(strand_count, word)`, `undercrossing_labels` has
one entry per generator of the word and every entry lies in
`{1, …, strand_count}`. -/
theorem undercrossing_labels_shape (n : Nat) (ops : List Int)
    (hn : 2 ≤ n) (hops : ∀ g ∈ ops, 1 ≤ g.natAbs ∧ g.natAbs ≤ n - 1) :
    ∃ b, mkBraid n ops = .ok b ∧
      b.undercrossing_labels.length = ops.length ∧
      ∀ u ∈ b.undercrossing_labels, 1 ≤ u ∧ u ≤ n := by
  have hops' : ∀ g ∈ ops, 1 ≤ g.natAbs ∧ g.natAbs < n := by
    intro g hg; have := hops g hg; omega
  have hrev : ∀ g ∈ ops.reverse, 1 ≤ g.natAbs ∧ g.natAbs < n := by
    intro g hg; exact hops' g (List.mem_reverse.mp hg)
  refine ⟨_, mkBraid_eq_spec n ops hops', ?_, ?_⟩
  · show ((specLoop ops.reverse (initLabels n) []).2.reverse).length = ops.length
    rw [List.length_reverse, specLoop_snd_length]
    simp
  · show ∀ u ∈ (specLoop ops.reverse (initLabels n) []).2.reverse, 1 ≤ u ∧ u ≤ n
    intro u hu
    refine specLoop_snd_mem ops.reverse n (fun u => 1 ≤ u ∧ u ≤ n)
      (initLabels n) [] (length_initLabels n) hrev ?_ ?_ u (List.mem_reverse.mp hu)
    · intro x hx; exact (mem_initLabels n x).mp hx
    · intro x hx; exact absurd hx (List.not_mem_nil x)

/-- C7 witness at `strand_count = 3`, `word = [-2, 1, 2]`. -/
theorem undercrossing_labels_shape_witness :
    ((2 ≤ 3) ∧ (∀ g ∈ ([-2, 1, 2] : List Int), 1 ≤ g.natAbs ∧ g.natAbs ≤ 3 - 1)) ∧
    ∃ b, mkBraid 3 [-2, 1, 2] = .ok b ∧
      b.undercrossing_labels.length = ([-2, 1, 2] : List Int).length ∧
      ∀ u ∈ b.undercrossing_labels, 1 ≤ u ∧ u ≤ 3 :=
  ⟨⟨by decide, by decide⟩, undercrossing_labels_shape 3 [-2, 1, 2] (by decide) (by decide)⟩

/-- C8: for every valid `strand_count`, the empty word constructs
successfully with `top_labels = bot_labels = [1, …, strand_count]` and no
under-crossing labels. -/
theorem empty_word_identity (n : Nat) (hn : 2 ≤ n) :
    ∃ b, mkBraid n [] = .ok b ∧ b.top_labels = initLabels n ∧
      b.bot_labels = initLabels n ∧ b.undercrossing_labels = [] := by
  refine ⟨_, mkBraid_eq_spec n [] ?_, rfl, rfl, rfl⟩
  intro g hg
  exact absurd hg (List.not_mem_nil g)

/-- C8 witness at `strand_count = 4`. -/
theorem empty_word_identity_witness :
    (2 ≤ 4) ∧
    ∃ b, mkBraid 4 [] = .ok b ∧ b.top_labels = initLabels 4 ∧
      b.bot_labels = initLabels 4 ∧ b.undercrossing_labels = [] :=
  ⟨by decide, empty_word_identity 4 (by decide)⟩

/-- C9: construction is deterministic — two constructions from the same
`(strand_count, word)` produce the same `top_labels`, `bot_labels` and
`undercrossing_labels` (the embedded constructor is a pure function of its
arguments, as the source has no randomness or external state). -/
theorem construction_deterministic (n : Nat) (ops : List Int) (b1 b2 : Braid)
    (h1 : mkBraid n ops = .ok b1) (h2 : mkBraid n ops = .ok b2) :
    b1.top_labels = b2.top_labels ∧ b1.bot_labels = b2.bot_labels ∧
      b1.undercrossing_labels = b2.undercrossing_labels := by
  have hok : (Except.ok b1 : Except String Braid) = Except.ok b2 := h1.symm.trans h2
  have hb : b1 = b2 := by injection hok
  exact ⟨by rw [hb], by rw [hb], by rw [hb]⟩

/-- C9 witness: both constructions at `strand_count = 2`, `word = [1]`. -/
theorem construction_deterministic_witness :
    mkBraid 2 [1] = .ok ⟨2, [1], [2, 1], [2, 1], [1]⟩ ∧
    ((⟨2, [1], [2, 1], [2, 1], [1]⟩ : Braid).top_labels =
        (⟨2, [1], [2, 1], [2, 1], [1]⟩ : Braid).top_labels ∧
      (⟨2, [1], [2, 1], [2, 1], [1]⟩ : Braid).bot_labels =
        (⟨2, [1], [2, 1], [2, 1], [1]⟩ : Braid).bot_labels ∧
      (⟨2, [1], [2, 1], [2, 1], [1]⟩ : Braid).undercrossing_labels =
        (⟨2, [1], [2, 1], [2, 1], [1]⟩ : Braid).undercrossing_labels) :=
  ⟨rfl, construction_deterministic 2 [1] ⟨2, [1], [2, 1], [2, 1], [1]⟩
    ⟨2, [1], [2, 1], [2, 1], [1]⟩ rfl rfl⟩

/-- C10: after any successful construction `bot_labels` equals `top_labels`:
both attributes are bound to the single working list that the tracking loop
mutates in place. -/
theorem bot_labels_eq_top_labels (n : Nat) (ops : List Int) (b : Braid)
    (h : mkBraid n ops = .ok b) : b.bot_labels = b.top_labels := by
  unfold mkBraid at h
  split at h
  · split at h
    · injection h with h'
      subst h'
      rfl
    · exact Except.noConfusion h
  · exact Except.noConfusion h

/-- C10 witness at `strand_count = 3`, `word = [1, 2]`. -/
theorem bot_labels_eq_top_labels_witness :
    mkBraid 3 [1, 2] = .ok ⟨3, [1, 2], [3, 1, 2], [3, 1, 2], [1, 2]⟩ ∧
    (⟨3, [1, 2], [3, 1, 2], [3, 1, 2], [1, 2]⟩ : Braid).bot_labels =
      (⟨3, [1, 2], [3, 1, 2], [3, 1, 2], [1, 2]⟩ : Braid).top_labels :=
  ⟨rfl, bot_labels_eq_top_labels 3 [1, 2] ⟨3, [1, 2], [3, 1, 2], [3, 1, 2], [1, 2]⟩ rfl⟩

end BraidVis
